import Mathlib

/-!
Verification of the LCoQI ("linear combinations of quadratic integers") engine
from `linear_combinations_of_quadratic_integers.py`.

The embedding follows the source line by line:

* Python exceptions become values of `Err`; each constructor is named after the
  Python exception class raised at the corresponding program point.
* The external exact-rational type (`mynumbers.Rational`) is modelled by `ℚ`;
  per the spec it supplies the field operations and comparison with 0 and 1.
  Division by zero is modelled as raising `Err.zeroDivisionError` (the standard
  behaviour of an exact-rational type in Python; the type itself is outside
  the repository).
* A Python `frozenset` of radical factors becomes a `Finset RFactor`; since the
  iteration order of a Python `frozenset` is unspecified, every place the source
  iterates over one we iterate in the canonical sorted order.
* A Python `dict`/`frozendict` becomes an association list that preserves
  insertion order (`dictGet` / `dictSet` mirror `d.get` and `d[k] = v`:
  updating an existing key keeps its position, a new key is appended).
* The mutually recursive `__mul__` / `inverse` / `__truediv__` methods are
  embedded with an explicit fuel parameter; `Err.fuelExhausted` never occurs in
  any run the theorems below talk about (every `.ok`/genuine-error result is a
  faithful image of the Python run).
-/

attribute [local semireducible] Rat.add Rat.mul Rat.sub Rat.inv

/-- Python exception classes that the embedded code can raise. -/
inductive Err
  /-- `ValueError` raised by `normalize_root` on a non-square-free integer
  (the spec's "ArithmeticDomainError"). -/
  | valueError
  /-- `TypeError` raised by `functools.reduce` on an empty iterable
  (in `inverse`, when the value has no terms at all). -/
  | typeError
  /-- `ZeroDivisionError` from the external exact-rational type. -/
  | zeroDivisionError
  /-- artifact of the fuelled embedding, not a Python behaviour. -/
  | fuelExhausted
deriving DecidableEq, Repr

/-- A radical factor stored inside a basis key: a plain integer `x`
(contributing `√x`; the normalizer only ever stores primes there) or the tag
tuple `("+√", x)` (contributing `√(x+√x)`). -/
inductive RFactor
  | num (n : Nat)
  | nested (x : Nat)
deriving DecidableEq, Repr

/-- Injective key used to order radical factors (plain ints on even keys,
nested tags on odd keys); the source iterates frozensets in unspecified
order, the embedding iterates them sorted by this key. -/
def RFactor.key : RFactor → Nat
  | .num n => 2 * n
  | .nested x => 2 * x + 1

instance : LinearOrder RFactor :=
  LinearOrder.lift' RFactor.key (fun a b h => by
    cases a <;> cases b <;> simp only [RFactor.key] at h <;> simp <;> omega)

/-- A basis key: a frozenset of radical factors. -/
abbrev BKey := Finset RFactor

/-- Raw radical specification accepted by `normalize_root`: an already-built
(frozen)set, the nested-radical tuple `("+√", x)`, or a plain integer. -/
inductive RawRoot
  | set (s : BKey)
  | nst (x : Nat)
  | int (n : Nat)
deriving DecidableEq

/-- `math.isqrt`: the largest `k` with `k * k ≤ n` (a structurally recursive
definition so that concrete runs evaluate inside the kernel). -/
def isqrt (n : Nat) : Nat :=
  (List.range (n + 2)).foldl (fun acc k => if k * k ≤ n then k else acc) 0

/-- Extract the elements of a basis key as a sorted list.  Python iterates a
`frozenset` in an unspecified order; the embedding fixes the canonical sorted
order for every such iteration. -/
def sortB (s : BKey) : List RFactor :=
  Quot.liftOn s.val (fun l => List.insertionSort (· ≤ ·) l) (fun l1 l2 h =>
    List.eq_of_perm_of_sorted
      ((List.perm_insertionSort _ l1).trans (h.trans (List.perm_insertionSort _ l2).symm))
      (List.sorted_insertionSort _ l1) (List.sorted_insertionSort _ l2))

/-- The trial-division loop of `normalize_root`: `for p in range(2, isqrt(n)+1)`.
`steps` counts the remaining values of `p` (the range bound is computed once
from the original `n`, exactly as in Python). -/
def nrLoop : Nat → Nat → Nat → List Nat → Except Err (List Nat × Nat)
  | 0, _, x, factors => .ok (factors, x)
  | steps + 1, p, x, factors =>
    if x % p = 0 then
      let y := x / p
      if y % p = 0 then .error .valueError
      else nrLoop steps (p + 1) y (factors ++ [p])
    else nrLoop steps (p + 1) x factors

/-- `normalize_root` from the source. -/
def normalize_root : RawRoot → Except Err BKey
  | .set s => .ok s
  | .nst x => .ok {RFactor.nested x}
  | .int n => do
    let (factors, x) ← nrLoop (isqrt n + 1 - 2) 2 n []
    .ok ((if x ≠ 1 then factors ++ [x] else factors).map RFactor.num).toFinset

/-- `d.get(k)` on an insertion-ordered dict. -/
def dictGet (l : List (BKey × ℚ)) (k : BKey) : Option ℚ :=
  (l.find? (fun q => decide (q.1 = k))).map (·.2)

/-- `d[k] = v` on an insertion-ordered dict: updating an existing key keeps
its position, a new key is appended. -/
def dictSet (l : List (BKey × ℚ)) (k : BKey) (v : ℚ) : List (BKey × ℚ) :=
  if k ∈ l.map (·.1) then l.map (fun q => if q.1 = k then (k, v) else q)
  else l ++ [(k, v)]

/-- An algebraic value: the `frozendict` of the Python class, as an
insertion-ordered association list from basis keys to rational coefficients. -/
structure LCoQI where
  coeffs : List (BKey × ℚ)

instance : DecidableEq LCoQI := fun a b =>
  decidable_of_iff (a.coeffs = b.coeffs) (by cases a; cases b; simp)

instance {α : Type} [DecidableEq α] : DecidableEq (Except Err α) := fun a b =>
  match a, b with
  | .ok x, .ok y => decidable_of_iff (x = y) (by simp)
  | .error e, .error f => decidable_of_iff (e = f) (by simp)
  | .ok _, .error _ => isFalse (by simp)
  | .error _, .ok _ => isFalse (by simp)

/-- `LCoQI({})` — the zero value. -/
def LCoQI.zero : LCoQI := ⟨[]⟩

/-- `LCoQI({1: 1})` — the rational unit (coefficient 1 on the empty basis). -/
def LCoQI.one : LCoQI := ⟨[(∅, 1)]⟩

/-- `LCoQI.__init__`: normalize every raw key and build the coefficient dict
(`{frozenset(normalize_root(r)): Rational(c) for r, c in coeffs.items()}`).
Note that no zero coefficient is dropped here. -/
def LCoQI.init (raw : List (RawRoot × ℚ)) : Except Err LCoQI := do
  let l ← raw.foldlM (fun res q => do
      let k ← normalize_root q.1
      pure (dictSet res k q.2)) ([] : List (BKey × ℚ))
  pure ⟨l⟩

/-- `LCoQI.__add__`: merge the two dicts (missing entries default to 0) and
drop entries whose coefficient is zero (`if coef` on the external rational
type is comparison with 0, which the spec requires it to support). -/
def LCoQI.add (a b : LCoQI) : LCoQI :=
  ⟨(b.coeffs.foldl (fun res q => dictSet res q.1 ((dictGet res q.1).getD 0 + q.2))
      a.coeffs).filter (fun q => decide (q.2 ≠ 0))⟩

/-- `LCoQI.__sub__`, same shape as `__add__` with subtraction. -/
def LCoQI.sub (a b : LCoQI) : LCoQI :=
  ⟨(b.coeffs.foldl (fun res q => dictSet res q.1 ((dictGet res q.1).getD 0 - q.2))
      a.coeffs).filter (fun q => decide (q.2 ≠ 0))⟩

/-- `(root1 \ root2) ∪ (root2 \ root1)`: `root1.symmetric_difference(root2)`. -/
def symmDiffB (s t : BKey) : BKey := (s \ t) ∪ (t \ s)

/-- The deferred "additional factor" `LCoQI({1: x, x: 1})` built in `__mul__`
when a nested factor `("+√", x)` occurs in both operands; its construction
normalizes the raw key `x` and can therefore raise. -/
def nestedSquareFactor (x : Nat) : Except Err LCoQI :=
  LCoQI.init [(RawRoot.int 1, (x : ℚ)), (RawRoot.int x, 1)]

/-- `LCoQI.__mul__`.  The outer branch distributes multi-term operands over
single-term products; the single-term branch collapses the shared factors.
Singleton values `LCoQI({root: coef})` built from an already-normalized
frozenset key are written directly as `⟨[(root, coef)]⟩` (the constructor
returns such keys unchanged). -/
def mulF : Nat → LCoQI → LCoQI → Except Err LCoQI
  | 0, _, _ => .error .fuelExhausted
  | fuel + 1, a, b =>
    if ¬(a.coeffs.length = 1 ∧ b.coeffs.length = 1) then
      a.coeffs.foldlM (fun res q1 =>
        b.coeffs.foldlM (fun res2 q2 => do
          let prod ← mulF fuel ⟨[q1]⟩ ⟨[q2]⟩
          pure (LCoQI.add res2 prod)) res) LCoQI.zero
    else
      let q1 := a.coeffs.headD (∅, 0)
      let q2 := b.coeffs.headD (∅, 0)
      do
        let cf ← (sortB (q1.1 ∩ q2.1)).foldlM
          (fun (cf : ℚ × List LCoQI) r =>
            match r with
            | RFactor.num m => pure (cf.1 * (m : ℚ), cf.2)
            | RFactor.nested x => do
              let f ← nestedSquareFactor x
              pure (cf.1, cf.2 ++ [f]))
          (q1.2 * q2.2, ([] : List LCoQI))
        let result ← LCoQI.init [(RawRoot.set (symmDiffB q1.1 q2.1), cf.1)]
        cf.2.foldlM (fun res f => mulF fuel res f) result

/-- Division on the external exact-rational type; dividing by zero raises
`ZeroDivisionError` (modelled from the spec: the rational type is an external
collaborator supplying the field operations). -/
def ratDiv (a b : ℚ) : Except Err ℚ :=
  if b = 0 then .error .zeroDivisionError else .ok (a / b)

/-- `reduce(lambda x, y: x | y, keys)`: `TypeError` on an empty iterable,
otherwise the union of all keys. -/
def keysReduce : List BKey → Except Err BKey
  | [] => .error .typeError
  | k :: ks => .ok (ks.foldl (· ∪ ·) k)

/-- The conjugate built inside `inverse`'s loop:
`LCoQI({roots: (-coef if root in roots else coef) for roots, coef in d.coeffs.items()})`. -/
def conjugate (d : LCoQI) (root : RFactor) : Except Err LCoQI :=
  LCoQI.init (d.coeffs.map (fun q =>
    (RawRoot.set q.1, if root ∈ q.1 then -q.2 else q.2)))

/-- `LCoQI.inverse`.  The degenerate branch handles a single pure-rational
term; the general branch conjugates away (in sorted order) every factor of the
union of the original denominator's basis keys, then divides the accumulated
numerator by the final denominator (`numerator / denominator`, i.e.
`numerator * denominator.inverse()`). -/
def inverseF : Nat → LCoQI → Except Err LCoQI
  | 0, _ => .error .fuelExhausted
  | fuel + 1, a =>
    if a.coeffs.length = 1 ∧ ∅ ∈ a.coeffs.map (·.1) then do
      let q ← ratDiv 1 ((dictGet a.coeffs ∅).getD 0)
      LCoQI.init [(RawRoot.int 1, q)]
    else do
      let numerator ← LCoQI.init [(RawRoot.int 1, 1)]
      let roots ← keysReduce (a.coeffs.map (·.1))
      let nd ← (sortB roots).foldlM
        (fun (nd : LCoQI × LCoQI) root => do
          let compl ← conjugate nd.2 root
          let den ← mulF fuel nd.2 compl
          let num ← mulF fuel nd.1 compl
          pure (num, den))
        (numerator, a)
      let inv ← inverseF fuel nd.2
      mulF fuel nd.1 inv

/-- `LCoQI.__truediv__`: `self * other.inverse()`. -/
def truedivF (fuel : Nat) (a b : LCoQI) : Except Err LCoQI := do
  let inv ← inverseF fuel b
  mulF fuel a inv

/-- The `while n:` loop of `LCoQI.__pow__` (square-and-multiply).  The first
argument is a structural bound on the number of iterations; `n` itself always
suffices since `n` is at least halved each time. -/
def powLoop (fuel : Nat) : Nat → Nat → LCoQI → LCoQI → Except Err LCoQI
  | _, 0, result, _ => .ok result
  | 0, _ + 1, _, _ => .error .fuelExhausted
  | bound + 1, n + 1, result, factor => do
    let r ← if (n + 1) % 2 = 1 then mulF fuel result factor else .ok result
    let f ← mulF fuel factor factor
    powLoop fuel bound ((n + 1) / 2) r f

/-- `LCoQI.__pow__`: binary exponentiation on `abs(power)` starting from the
rational unit, inverting at the end when the exponent is negative. -/
def powF (fuel : Nat) (a : LCoQI) (power : Int) : Except Err LCoQI := do
  let r ← powLoop fuel power.natAbs power.natAbs LCoQI.one a
  if 0 ≤ power then pure r else inverseF fuel r

/-- Plain-text rendering of the external rational type (modelled from the
spec: the rational collaborator renders itself; not constrained further by any
claim below). -/
def ratStr (q : ℚ) : String :=
  if q.den = 1 then toString q.num else toString q.num ++ "/" ++ toString q.den

/-- `root_to_str`: multiply the plain integer factors into one `√N` token and
render each nested factor as `√(x+√x)`. -/
def rootToStr (roots : BKey) : String :=
  let rn := (sortB roots).foldl
    (fun (rn : List String × Nat) root =>
      match root with
      | RFactor.num x => (rn.1, rn.2 * x)
      | RFactor.nested x =>
        (rn.1 ++ ["√(" ++ toString x ++ "+√" ++ toString x ++ ")"], rn.2))
    (([] : List String), 1)
  let result := if rn.2 ≠ 1 then rn.1 ++ ["√" ++ toString rn.2] else rn.1
  if result ≠ [] then String.join result else ""

/-- One term of `LCoQI.__str__`: `str(coef) + root if coef != 1 else root or "1"`. -/
def strTerm (q : BKey × ℚ) : String :=
  let root := rootToStr q.1
  if q.2 ≠ 1 then ratStr q.2 ++ root else (if root = "" then "1" else root)

/-- `LCoQI.__str__`: the terms joined with `" + "`, or `"0"` when there are none. -/
def lcoqiStr (a : LCoQI) : String :=
  let terms := a.coeffs.map strTerm
  if terms ≠ [] then String.intercalate " + " terms else "0"

/-- `LCoQI({("+√", 4): 1})`, the value `√(4+√4)`: a nonzero value on which
`inverse` raises, because squaring its nested factor builds `LCoQI({1: 4, 4: 1})`
and `normalize_root(4)` rejects the non-square-free raw key `4`. -/
def vNested4 : LCoQI := ⟨[({RFactor.nested 4}, 1)]⟩

/-- The pure-rational value `LCoQI({1: c})`. -/
def ratVal (c : ℚ) : LCoQI := ⟨[((∅ : BKey), c)]⟩

/-- The value `c0 + c1·√p` in canonical form (entries with coefficient zero
dropped, exactly as the additive operations produce them). -/
def primePair (p : Nat) (c0 c1 : ℚ) : LCoQI :=
  ⟨[((∅ : BKey), c0), ({RFactor.num p}, c1)].filter (fun q => decide (q.2 ≠ 0))⟩

/-- Modelled from the claim (C10): the conjugation loop of `inverse`, written
as explicit recursion over a list of radical factors that is fixed before the
loop starts — factors introduced into the denominator during conjugation are
never added to it. -/
def conjChain (fuel : Nat) : List RFactor → LCoQI → LCoQI → Except Err (LCoQI × LCoQI)
  | [], num, den => Except.ok (num, den)
  | r :: rs, num, den => do
    let compl ← conjugate den r
    let den2 ← mulF fuel den compl
    let num2 ← mulF fuel num compl
    conjChain fuel rs num2 den2

/-- Modelled from the claim (C10): inversion with the set of factors to
conjugate computed exactly once, up front, as the union of the basis keys of
the original denominator; after the conjugation chain the final denominator is
inverted by a recursive call to the inversion routine through the division
step (`numerator * denominator.inverse()`), which handles both the
single-pure-rational case (degenerate branch) and any remaining radicals
(another round of conjugation). -/
def inverseSnap : Nat → LCoQI → Except Err LCoQI
  | 0, _ => .error .fuelExhausted
  | fuel + 1, a =>
    if a.coeffs.length = 1 ∧ ∅ ∈ a.coeffs.map (·.1) then do
      let q ← ratDiv 1 ((dictGet a.coeffs ∅).getD 0)
      LCoQI.init [(RawRoot.int 1, q)]
    else do
      let numerator ← LCoQI.init [(RawRoot.int 1, 1)]
      let roots ← keysReduce (a.coeffs.map (·.1))
      let nd ← conjChain fuel (sortB roots) numerator a
      let inv ← inverseSnap fuel nd.2
      mulF fuel nd.1 inv

theorem exc_bind_ok {α β : Type} (a : α) (f : α → Except Err β) :
    (Except.ok a >>= f) = f a := rfl

theorem exc_bind_err {α β : Type} (e : Err) (f : α → Except Err β) :
    ((Except.error e : Except Err α) >>= f) = Except.error e := rfl

theorem exc_pure (a : LCoQI) : (pure a : Except Err LCoQI) = Except.ok a := rfl

/-- Claim C5 (confirmed): for `v = LCoQI({("+√", 2): 1})`, the product `v*v`
equals `LCoQI({1: 2, 2: 1})`, i.e. the value `2 + √2`. -/
theorem c5_nested_squaring :
    (LCoQI.init [(RawRoot.nst 2, 1)]).bind (fun v => mulF 9 v v) =
      LCoQI.init [(RawRoot.int 1, 2), (RawRoot.int 2, 1)] := by decide

/-- Claim C3 (code bug, supporting theorem): the canonical coefficient mapping
is deterministic in the construction input — `LCoQI({1: 1})` and
`LCoQI({frozenset(): 1})` produce identical canonical mappings, so a
structural equality would identify them; the Python class, however, defines no
`__eq__`, so `==` compares object identity and returns `False` even for two
values with equal mappings. -/
theorem c3_structural_mapping :
    LCoQI.init [(RawRoot.int 1, (1 : ℚ))] = LCoQI.init [(RawRoot.set ∅, (1 : ℚ))] := by decide

/-- Claim C2 (counterexample): the constructor does not prune zero
coefficients — `LCoQI({1: 0})` stores the entry `(∅, 0)`, violating "zero
terms are pruned on construction". -/
theorem c2_counterexample :
    LCoQI.init [(RawRoot.int 1, (0 : ℚ))] = Except.ok ⟨[((∅ : BKey), 0)]⟩ ∧
    ((⟨[((∅ : BKey), 0)]⟩ : LCoQI).coeffs.any (fun q => decide (q.2 = 0))) = true := by decide

/-- Claim C2 (amended): the additive combinations do prune: every entry of
`a + b` and of `a - b` has a nonzero coefficient, for all values `a`, `b`
(construction itself stores whatever coefficient it is given). -/
theorem c2_amended (a b : LCoQI) :
    ((LCoQI.add a b).coeffs.all (fun q => decide (q.2 ≠ 0))) = true ∧
    ((LCoQI.sub a b).coeffs.all (fun q => decide (q.2 ≠ 0))) = true := by
  constructor <;>
    · simp only [LCoQI.add, LCoQI.sub, List.all_eq_true]
      intro q hq
      exact (List.mem_filter.mp hq).2

/-- Claim C7 (counterexample): inverting the zero value (the empty mapping)
raises `TypeError` (from `reduce` over an empty iterable), which is not a
division-by-zero arithmetic error. -/
theorem c7_counterexample :
    inverseF 9 LCoQI.zero = Except.error Err.typeError ∧
    Err.typeError ≠ Err.zeroDivisionError := by decide

/-- Claim C7 (amended): inverting the zero value fails deterministically and
immediately, but with a `TypeError` from reducing the empty set of basis keys,
not with a division-by-zero arithmetic error. -/
theorem c7_amended (fuel : Nat) :
    inverseF (fuel + 1) LCoQI.zero = Except.error Err.typeError := rfl

/-- Claim C4 (counterexample): in single-term multiplication the deferred
additional factor for a shared `Nested(2)` is `LCoQI({1: 2, 2: 1})`: its
coefficient on the basis `{Prime(2)}` is `1`, not `2` as the claim states. -/
theorem c4_counterexample :
    ¬((nestedSquareFactor 2).map (fun v => dictGet v.coeffs {RFactor.num 2}) =
      Except.ok (some 2)) := by decide

/-- Claim C1 (counterexample): the inverse law fails as a universal statement:
`a = LCoQI({("+√", 4): 1})` is nonzero, yet `a * a.inverse()` raises
`ValueError` (squaring the nested factor during conjugation constructs
`LCoQI({1: 4, 4: 1})`, whose raw key `4` is not square-free) instead of
producing the rational unit. -/
theorem c1_counterexample :
    LCoQI.init [(RawRoot.nst 4, 1)] = Except.ok vNested4 ∧ vNested4 ≠ LCoQI.zero ∧
    (inverseF 9 vNested4).bind (mulF 9 vNested4) = Except.error Err.valueError ∧
    (inverseF 9 vNested4).bind (mulF 9 vNested4) ≠ Except.ok LCoQI.one := by decide

/-- Claim C8 (counterexample): the power law fails as a universal statement:
for the nonzero `a = LCoQI({("+√", 4): 1})` and `m = 2`, `n = -2`,
`a**(m+n)` is the rational unit but `a**m * a**n` raises `ValueError`. -/
theorem c8_counterexample :
    LCoQI.init [(RawRoot.nst 4, 1)] = Except.ok vNested4 ∧ vNested4 ≠ LCoQI.zero ∧
    ¬(powF 9 vNested4 (2 + -2) =
      (powF 9 vNested4 2).bind (fun x => (powF 9 vNested4 (-2)).bind (fun y => mulF 9 x y))) := by
  decide

theorem exc_pure_eq {α : Type} (a : α) : (pure a : Except Err α) = Except.ok a := rfl

theorem isqrt_ge_aux (n : Nat) :
    ∀ m acc q, q < m → q * q ≤ n →
      q ≤ (List.range m).foldl (fun acc k => if k * k ≤ n then k else acc) acc := by
  intro m
  induction m with
  | zero => intro acc q h _; omega
  | succ m ih =>
    intro acc q hq hsq
    rw [List.range_succ, List.foldl_append, List.foldl_cons, List.foldl_nil]
    by_cases hm : m * m ≤ n
    · rw [if_pos hm]; omega
    · rw [if_neg hm]
      rcases Nat.lt_succ_iff_lt_or_eq.mp hq with h | h
      · exact ih acc q h hsq
      · subst h; exact absurd hsq hm

theorem le_isqrt {q n : Nat} (h : q * q ≤ n) : q ≤ isqrt n := by
  have hq : q < n + 2 := by
    rcases Nat.eq_zero_or_pos q with h0 | h0
    · omega
    · have : q ≤ q * q := Nat.le_mul_of_pos_left q h0
      omega
  exact isqrt_ge_aux n (n + 2) 0 q hq h

theorem nrLoop_error (steps : Nat) :
    ∀ p x factors q, Nat.Prime q → q * q ∣ x → 2 ≤ p → p ≤ q → q < p + steps →
      nrLoop steps p x factors = Except.error Err.valueError := by
  induction steps with
  | zero => intro p x factors q _ _ _ _ _; omega
  | succ steps ih =>
    intro p x factors q hq hdvd hp2 hpq hlt
    rw [show nrLoop (steps + 1) p x factors =
        (if x % p = 0 then
          (if (x / p) % p = 0 then Except.error Err.valueError
           else nrLoop steps (p + 1) (x / p) (factors ++ [p]))
         else nrLoop steps (p + 1) x factors) from rfl]
    by_cases hpq2 : p = q
    · subst hpq2
      obtain ⟨k, hk⟩ := hdvd
      have hppos : 0 < p := by omega
      have hxp2 : x / p = p * k := by
        rw [hk, Nat.mul_assoc, Nat.mul_div_cancel_left _ hppos]
      have hx : x % p = 0 := by
        rw [hk, Nat.mul_assoc]
        exact Nat.mul_mod_right p (p * k)
      have hy : (x / p) % p = 0 := by
        rw [hxp2]
        exact Nat.mul_mod_right p k
      rw [if_pos hx, if_pos hy]
    · have hplt : p < q := lt_of_le_of_ne hpq hpq2
      by_cases hxp : x % p = 0
      · by_cases hyp : (x / p) % p = 0
        · rw [if_pos hxp, if_pos hyp]
        · rw [if_pos hxp, if_neg hyp]
          have hqp : Nat.Coprime q p := (Nat.Prime.coprime_iff_not_dvd hq).mpr
            (fun hd => absurd (Nat.le_of_dvd (by omega) hd) (by omega))
          have hqqp : Nat.Coprime (q * q) p := Nat.Coprime.mul hqp hqp
          have hpx : p ∣ x := Nat.dvd_of_mod_eq_zero hxp
          have hxeq : p * (x / p) = x := Nat.mul_div_cancel' hpx
          have hdvd2 : q * q ∣ p * (x / p) := by rw [hxeq]; exact hdvd
          exact ih (p + 1) (x / p) (factors ++ [p]) q hq
            (Nat.Coprime.dvd_of_dvd_mul_left hqqp hdvd2)
            (by omega) (by omega) (by omega)
      · rw [if_neg hxp]
        exact ih (p + 1) x factors q hq hdvd (by omega) (by omega) (by omega)

/-- Claim C6 (confirmed): constructing an Algebraic Value from a plain integer
radical specification that is not square-free fails immediately at
construction time with the `ValueError` that the spec's error taxonomy calls
ArithmeticDomainError. -/
theorem c6_non_squarefree (n : Nat) (h1 : 1 ≤ n) (h2 : ¬ Squarefree n) :
    LCoQI.init [(RawRoot.int n, 1)] = Except.error Err.valueError := by
  rw [Nat.squarefree_iff_prime_squarefree] at h2
  push_neg at h2
  obtain ⟨q, hq, hdvd⟩ := h2
  have hqn : q * q ≤ n := Nat.le_of_dvd (by omega) hdvd
  have hq2 : 2 ≤ q := hq.two_le
  have hqi : q ≤ isqrt n := le_isqrt hqn
  have hloop : nrLoop (isqrt n - 1) 2 n [] = Except.error Err.valueError := by
    rw [show isqrt n - 1 = isqrt n + 1 - 2 by omega]
    exact nrLoop_error _ 2 n [] q hq hdvd (le_refl 2) hq2 (by omega)
  have hnorm : normalize_root (RawRoot.int n) = Except.error Err.valueError := by
    simp [normalize_root, hloop, exc_bind_err]
  simp [LCoQI.init, hnorm, exc_bind_err, exc_bind_ok, List.foldlM_cons, List.foldlM_nil]

/-- Claim C6 (witness): the spec's own example, `√12` with `12 = 2²·3`. -/
theorem c6_witness : LCoQI.init [(RawRoot.int 12, 1)] = Except.error Err.valueError :=
  c6_non_squarefree 12 (by norm_num) (by decide)

/-- Claim C4 (amended): the deferred additional factor for a shared
`Nested(x)` whose `x` normalizes to a nonempty basis `B` (the set of prime
factors of `x`) is the two-term value with coefficient `x` on the empty basis
and coefficient `1` (not `x`) on `B` (which is `{Prime(x)}` only when `x` is
prime). -/
theorem c4_amended (x : Nat) (B : BKey) (h1 : normalize_root (RawRoot.int x) = Except.ok B)
    (h2 : B ≠ ∅) :
    nestedSquareFactor x = Except.ok ⟨[((∅ : BKey), (x : ℚ)), (B, 1)]⟩ := by
  have hn1 : normalize_root (RawRoot.int 1) = Except.ok (∅ : BKey) := by decide
  simp [nestedSquareFactor, LCoQI.init, hn1, h1, dictSet, h2, exc_bind_ok, exc_bind_err,
    exc_pure_eq, List.foldlM_cons, List.foldlM_nil]

/-- Claim C4 (witness): at `x = 2` the factor is `LCoQI({1: 2, 2: 1})`. -/
theorem c4_witness :
    nestedSquareFactor 2 = Except.ok ⟨[((∅ : BKey), ((2 : Nat) : ℚ)), ({RFactor.num 2}, 1)]⟩ :=
  c4_amended 2 {RFactor.num 2} (by decide) (by decide)

/-- Claim C9 (confirmed): plain-text rendering — the zero value renders as
`"0"`, the rational unit renders as `"1"`, a term with coefficient exactly 1
and a nonempty rendered radical part renders the radical part alone, and the
terms of a nonzero value are joined with `" + "`. -/
theorem c9_rendering (B : BKey) (c : ℚ) (v : LCoQI) (hc : c = 1) (hB : rootToStr B ≠ "")
    (hv : v.coeffs ≠ []) :
    lcoqiStr LCoQI.zero = "0" ∧ lcoqiStr LCoQI.one = "1" ∧
    strTerm (B, c) = rootToStr B ∧
    lcoqiStr v = String.intercalate " + " (v.coeffs.map strTerm) := by
  refine ⟨by decide, by decide, ?_, ?_⟩
  · subst hc
    simp [strTerm, hB]
  · simp [lcoqiStr, hv]

/-- Claim C9 (witness): instantiated at the basis `{Prime(2)}` (rendering
`"√2"`), coefficient 1, and the rational unit as the nonzero value. -/
theorem c9_witness :
    lcoqiStr LCoQI.zero = "0" ∧ lcoqiStr LCoQI.one = "1" ∧
    strTerm ({RFactor.num 2}, 1) = rootToStr {RFactor.num 2} ∧
    lcoqiStr LCoQI.one = String.intercalate " + " (LCoQI.one.coeffs.map strTerm) :=
  c9_rendering {RFactor.num 2} 1 LCoQI.one rfl (by decide) (by decide)

theorem mulRat (n : Nat) (c d : ℚ) :
    mulF (n + 1) (ratVal c) (ratVal d) = Except.ok (ratVal (c * d)) := rfl

theorem initRatDiv (q : ℚ) :
    LCoQI.init [(RawRoot.int 1, q)] = Except.ok (ratVal q) := rfl

theorem dictGetRat (c : ℚ) : dictGet (ratVal c).coeffs ∅ = some c := rfl

theorem invRat (n : Nat) (c : ℚ) (hc : c ≠ 0) :
    inverseF (n + 1) (ratVal c) = Except.ok (ratVal (1 / c)) := by
  have h1 : (ratVal c).coeffs.length = 1 ∧ (∅ : BKey) ∈ (ratVal c).coeffs.map (·.1) := by
    simp [ratVal]
  simp only [inverseF]
  rw [if_pos h1, dictGetRat]
  simp only [Option.getD_some, ratDiv, if_neg hc, exc_bind_ok, initRatDiv]

theorem powLoopRat (fuel : Nat) :
    ∀ bound k r f, k ≤ bound →
      powLoop (fuel + 1) bound k (ratVal r) (ratVal f) = Except.ok (ratVal (r * f ^ k)) := by
  intro bound
  induction bound with
  | zero =>
    intro k r f hk
    obtain rfl : k = 0 := Nat.le_zero.mp hk
    simp [powLoop, pow_zero]
  | succ bound ih =>
    intro k r f hk
    match k with
    | 0 => simp [powLoop, pow_zero]
    | k + 1 =>
      rw [show powLoop (fuel + 1) (bound + 1) (k + 1) (ratVal r) (ratVal f) =
          (do
            let r2 ← if (k + 1) % 2 = 1 then mulF (fuel + 1) (ratVal r) (ratVal f)
              else Except.ok (ratVal r)
            let f2 ← mulF (fuel + 1) (ratVal f) (ratVal f)
            powLoop (fuel + 1) bound ((k + 1) / 2) r2 f2) from rfl]
      have hdiv : (k + 1) / 2 ≤ bound := by omega
      by_cases hpar : (k + 1) % 2 = 1
      · rw [if_pos hpar]
        simp only [mulRat, exc_bind_ok]
        rw [ih ((k + 1) / 2) (r * f) (f * f) hdiv]
        have key : (r * f) * (f * f) ^ ((k + 1) / 2) = r * f ^ (k + 1) := by
          obtain ⟨m, hm⟩ : ∃ m, m = (k + 1) / 2 := ⟨_, rfl⟩
          rw [← hm]
          have hk2 : k + 1 = 2 * m + 1 := by omega
          rw [hk2, pow_succ, pow_mul, pow_two]
          ring
        rw [key]
      · rw [if_neg hpar]
        simp only [mulRat, exc_bind_ok]
        rw [ih ((k + 1) / 2) r (f * f) hdiv]
        have key : r * (f * f) ^ ((k + 1) / 2) = r * f ^ (k + 1) := by
          obtain ⟨m, hm⟩ : ∃ m, m = (k + 1) / 2 := ⟨_, rfl⟩
          rw [← hm]
          have hk2 : k + 1 = 2 * m := by omega
          rw [hk2, pow_mul, pow_two]
        rw [key]

theorem exc_bind_ok2 {α β : Type} (a : α) (f : α → Except Err β) :
    (Except.ok a).bind f = f a := rfl

theorem powRat (n : Nat) (c : ℚ) (hc : c ≠ 0) (p : Int) :
    powF (n + 1) (ratVal c) p = Except.ok (ratVal (c ^ p)) := by
  have hone : LCoQI.one = ratVal 1 := rfl
  unfold powF
  rw [hone, powLoopRat n p.natAbs p.natAbs 1 c (le_refl _)]
  simp only [exc_bind_ok, one_mul]
  by_cases hp : 0 ≤ p
  · rw [if_pos hp]
    have hcast : c ^ p = c ^ p.natAbs := by
      rw [show p = (p.natAbs : ℤ) by omega, zpow_natCast]
      simp [Int.natAbs_abs]
    rw [hcast, exc_pure_eq]
  · rw [if_neg hp]
    rw [invRat n (c ^ p.natAbs) (pow_ne_zero _ hc)]
    have hcast : c ^ p = 1 / c ^ p.natAbs := by
      rw [show p = -(p.natAbs : ℤ) by omega, zpow_neg, zpow_natCast, one_div]
      simp [Int.natAbs_abs]
    rw [hcast]

/-- Claim C8 (amended): on nonzero pure-rational values `a = LCoQI({1: c})`
the power laws hold: `a**(m+k)` equals `a**m * a**k`, `a**0` is the rational
unit, and `a**(-k)` equals `(a**k).inverse()`. -/
theorem c8_amended (n : Nat) (c : ℚ) (m k : Int) (hc : c ≠ 0) :
    powF (n + 1) (ratVal c) (m + k) =
      (powF (n + 1) (ratVal c) m).bind
        (fun x => (powF (n + 1) (ratVal c) k).bind (fun y => mulF (n + 1) x y)) ∧
    powF (n + 1) (ratVal c) 0 = Except.ok LCoQI.one ∧
    powF (n + 1) (ratVal c) (-k) = (powF (n + 1) (ratVal c) k).bind (inverseF (n + 1)) := by
  refine ⟨?_, ?_, ?_⟩
  · rw [powRat n c hc, powRat n c hc, powRat n c hc]
    simp only [exc_bind_ok2, mulRat]
    rw [zpow_add₀ hc]
  · rw [powRat n c hc 0, zpow_zero]
    rfl
  · rw [powRat n c hc, powRat n c hc]
    simp only [exc_bind_ok2]
    rw [invRat n (c ^ k) (zpow_ne_zero k hc), zpow_neg, one_div]

/-- Claim C8 (witness): instantiated at `c = 2`, `m = 3`, `k = -1`. -/
theorem c8_witness :
    powF 1 (ratVal 2) (3 + -1) =
      (powF 1 (ratVal 2) 3).bind
        (fun x => (powF 1 (ratVal 2) (-1)).bind (fun y => mulF 1 x y)) ∧
    powF 1 (ratVal 2) 0 = Except.ok LCoQI.one ∧
    powF 1 (ratVal 2) (-(-1)) = (powF 1 (ratVal 2) (-1)).bind (inverseF 1) :=
  c8_amended 0 2 3 (-1) (by norm_num)

theorem conjChain_eq_foldlM (fuel : Nat) :
    ∀ (rs : List RFactor) (num den : LCoQI),
      (rs.foldlM (fun (nd : LCoQI × LCoQI) root => do
          let compl ← conjugate nd.2 root
          let den2 ← mulF fuel nd.2 compl
          let num2 ← mulF fuel nd.1 compl
          pure (num2, den2)) (num, den)) = conjChain fuel rs num den := by
  intro rs
  induction rs with
  | nil => intro num den; rfl
  | cons r rs ih =>
    intro num den
    rw [List.foldlM_cons]
    simp only [conjChain]
    cases hc : conjugate den r with
    | error e => simp [hc, exc_bind_err]
    | ok compl =>
      simp only [hc, exc_bind_ok]
      cases hd : mulF fuel den compl with
      | error e => simp [exc_bind_err]
      | ok den2 =>
        simp only [exc_bind_ok]
        cases hn : mulF fuel num compl with
        | error e => simp [exc_bind_err]
        | ok num2 =>
          simp only [exc_bind_ok, pure_bind]
          exact ih num2 den2

/-- Claim C10 (confirmed): in `inverse`, the set of radical factors to
conjugate is computed exactly once, up front, as the union of the basis keys
of the original denominator; factors introduced later during conjugation are
not added to it, and the final denominator — in particular when it is not a
single pure-rational term — is inverted by a recursive call to inverse through
the final division step.  Stated as agreement of the source embedding with the
claim-shaped definition `inverseSnap` at every fuel and every value. -/
theorem c10_snapshot : ∀ fuel a, inverseF fuel a = inverseSnap fuel a := by
  intro fuel
  induction fuel with
  | zero => intro a; rfl
  | succ fuel ih =>
    intro a
    by_cases h : a.coeffs.length = 1 ∧ (∅ : BKey) ∈ a.coeffs.map (·.1)
    · simp only [inverseF, inverseSnap]
      rw [if_pos h, if_pos h]
    · simp only [inverseF, inverseSnap]
      rw [if_neg h, if_neg h, initRatDiv 1]
      simp only [exc_bind_ok]
      cases hk : keysReduce (a.coeffs.map (·.1)) with
      | error e => simp [exc_bind_err]
      | ok roots =>
        simp only [exc_bind_ok]
        rw [conjChain_eq_foldlM]
        cases hnd : conjChain fuel (sortB roots) (ratVal 1) a with
        | error e => simp [exc_bind_err]
        | ok nd =>
          simp only [exc_bind_ok, ih nd.2]

theorem sortB_empty : sortB (∅ : BKey) = [] := rfl

theorem sortB_singleton (r : RFactor) : sortB {r} = [r] := rfl

theorem initSet1 (k : BKey) (c : ℚ) :
    LCoQI.init [(RawRoot.set k, c)] = Except.ok ⟨[(k, c)]⟩ := rfl

theorem initSet2 (k1 k2 : BKey) (h : k2 ≠ k1) (c1 c2 : ℚ) :
    LCoQI.init [(RawRoot.set k1, c1), (RawRoot.set k2, c2)] =
      Except.ok ⟨[(k1, c1), (k2, c2)]⟩ := by
  simp [LCoQI.init, normalize_root, dictSet, h, List.foldlM_cons, List.foldlM_nil,
    exc_bind_ok, exc_pure_eq]

theorem dictGet_nil (k : BKey) : dictGet [] k = none := rfl

theorem dictGet_cons_eq (k : BKey) (c : ℚ) (l : List (BKey × ℚ)) :
    dictGet ((k, c) :: l) k = some c := by
  simp [dictGet, List.find?_cons_of_pos]

theorem dictGet_cons_ne (k1 k : BKey) (h : ¬(k1 = k)) (c : ℚ) (l : List (BKey × ℚ)) :
    dictGet ((k1, c) :: l) k = dictGet l k := by
  simp only [dictGet, List.find?]
  rw [show (decide (k1 = k)) = false from decide_eq_false h]

theorem conjugate_single_mem (k : BKey) (c : ℚ) (r : RFactor) (h : r ∈ k) :
    conjugate ⟨[(k, c)]⟩ r = Except.ok ⟨[(k, -c)]⟩ := by
  simp only [conjugate, List.map_cons, List.map_nil, if_pos h]
  exact initSet1 k (-c)

theorem mulSingleFree (n : Nat) (k1 k2 : BKey) (a b : ℚ) (hint : k1 ∩ k2 = ∅) :
    mulF (n + 1) ⟨[(k1, a)]⟩ ⟨[(k2, b)]⟩ = Except.ok ⟨[(symmDiffB k1 k2, a * b)]⟩ := by
  simp only [mulF]
  rw [if_neg (by simp)]
  simp only [List.headD_cons, hint, sortB_empty, List.foldlM_nil, pure_bind, initSet1,
    exc_bind_ok]
  rfl

theorem mulEP (n : Nat) (p : Nat) (a b : ℚ) :
    mulF (n + 1) ⟨[((∅ : BKey), a)]⟩ ⟨[({RFactor.num p}, b)]⟩ =
      Except.ok ⟨[({RFactor.num p}, a * b)]⟩ := by
  rw [mulSingleFree n ∅ {RFactor.num p} a b (Finset.empty_inter _)]
  rw [show symmDiffB ∅ {RFactor.num p} = {RFactor.num p} by
    simp [symmDiffB]]

theorem mulPE (n : Nat) (p : Nat) (a b : ℚ) :
    mulF (n + 1) ⟨[({RFactor.num p}, a)]⟩ ⟨[((∅ : BKey), b)]⟩ =
      Except.ok ⟨[({RFactor.num p}, a * b)]⟩ := by
  rw [mulSingleFree n {RFactor.num p} ∅ a b (Finset.inter_empty _)]
  rw [show symmDiffB {RFactor.num p} ∅ = {RFactor.num p} by
    simp [symmDiffB]]

theorem mulPP (n : Nat) (p : Nat) (a b : ℚ) :
    mulF (n + 1) ⟨[({RFactor.num p}, a)]⟩ ⟨[({RFactor.num p}, b)]⟩ =
      Except.ok ⟨[((∅ : BKey), a * b * (p : ℚ))]⟩ := by
  simp only [mulF]
  rw [if_neg (by simp)]
  simp only [List.headD_cons, Finset.inter_self, sortB_singleton, List.foldlM_cons,
    List.foldlM_nil, pure_bind, exc_bind_ok, initSet1]
  rw [show symmDiffB ({RFactor.num p} : BKey) {RFactor.num p} = ∅ by
    simp [symmDiffB]]
  rfl

theorem prime_no_rat_sq (p : Nat) (hp : Nat.Prime p) (c0 c1 : ℚ) (hc1 : c1 ≠ 0) :
    c0 * c0 - c1 * c1 * (p : ℚ) ≠ 0 := by
  intro h
  have h2 : c0 * c0 = c1 * c1 * (p : ℚ) := by linarith
  have hq : ((c0 / c1) * (c0 / c1) : ℚ) = (p : ℚ) := by
    field_simp
    linarith
  have hsq : IsSquare ((p : ℚ)) := ⟨c0 / c1, hq.symm⟩
  rw [Rat.isSquare_natCast_iff] at hsq
  exact hp.not_square hsq

theorem addA1 (k : BKey) (z : ℚ) (hz : ¬(z = 0)) :
    LCoQI.add LCoQI.zero ⟨[(k, z)]⟩ = ⟨[(k, z)]⟩ := by
  simp [LCoQI.add, LCoQI.zero, dictGet_nil, dictSet, List.foldl_cons, List.foldl_nil,
    List.filter, hz]

theorem addA2 (k1 k2 : BKey) (x z : ℚ) (h12 : ¬(k1 = k2)) (h21 : ¬(k2 = k1))
    (hx : ¬(x = 0)) (hz : ¬(z = 0)) :
    LCoQI.add ⟨[(k1, x)]⟩ ⟨[(k2, z)]⟩ = ⟨[(k1, x), (k2, z)]⟩ := by
  simp [LCoQI.add, dictGet_cons_ne k1 k2 h12, dictGet_nil, dictSet, List.foldl_cons,
    List.foldl_nil, List.filter, h21, hx, hz]

theorem addA5 (k : BKey) (x z : ℚ) (hxz : ¬(x + z = 0)) :
    LCoQI.add ⟨[(k, x)]⟩ ⟨[(k, z)]⟩ = ⟨[(k, x + z)]⟩ := by
  simp [LCoQI.add, dictGet_cons_eq, dictSet, List.foldl_cons, List.foldl_nil,
    List.filter, hxz]

theorem addA3 (k1 k2 : BKey) (x y z : ℚ) (h12 : ¬(k1 = k2)) (hx : ¬(x = 0))
    (hyz : y + z = 0) :
    LCoQI.add ⟨[(k1, x), (k2, y)]⟩ ⟨[(k2, z)]⟩ = ⟨[(k1, x)]⟩ := by
  simp [LCoQI.add, dictGet_cons_ne k1 k2 h12, dictGet_cons_eq, dictSet, List.foldl_cons,
    List.foldl_nil, List.filter, h12, hx, hyz]

theorem mulF_multi_12 (n : Nat) (q1 q3 q4 : BKey × ℚ) :
    mulF (n + 1) ⟨[q1]⟩ ⟨[q3, q4]⟩ =
      (mulF n ⟨[q1]⟩ ⟨[q3]⟩) >>= fun p13 =>
      (mulF n ⟨[q1]⟩ ⟨[q4]⟩) >>= fun p14 =>
      Except.ok ((LCoQI.zero.add p13).add p14) := by
  simp only [mulF]
  rw [if_pos (by simp)]
  simp only [List.foldlM_cons, List.foldlM_nil, bind_assoc, pure_bind, bind_pure,
    exc_pure_eq, exc_bind_ok]

theorem mulF_multi_21 (n : Nat) (q1 q2 q3 : BKey × ℚ) :
    mulF (n + 1) ⟨[q1, q2]⟩ ⟨[q3]⟩ =
      (mulF n ⟨[q1]⟩ ⟨[q3]⟩) >>= fun p13 =>
      (mulF n ⟨[q2]⟩ ⟨[q3]⟩) >>= fun p23 =>
      Except.ok ((LCoQI.zero.add p13).add p23) := by
  simp only [mulF]
  rw [if_pos (by simp)]
  simp only [List.foldlM_cons, List.foldlM_nil, bind_assoc, pure_bind, bind_pure,
    exc_pure_eq, exc_bind_ok]

theorem mulF_multi_22 (n : Nat) (q1 q2 q3 q4 : BKey × ℚ) :
    mulF (n + 1) ⟨[q1, q2]⟩ ⟨[q3, q4]⟩ =
      (mulF n ⟨[q1]⟩ ⟨[q3]⟩) >>= fun p13 =>
      (mulF n ⟨[q1]⟩ ⟨[q4]⟩) >>= fun p14 =>
      (mulF n ⟨[q2]⟩ ⟨[q3]⟩) >>= fun p23 =>
      (mulF n ⟨[q2]⟩ ⟨[q4]⟩) >>= fun p24 =>
      Except.ok ((((LCoQI.zero.add p13).add p14).add p23).add p24) := by
  simp only [mulF]
  rw [if_pos (by simp)]
  simp only [List.foldlM_cons, List.foldlM_nil, bind_assoc, pure_bind, bind_pure,
    exc_pure_eq, exc_bind_ok]

theorem inverseF_succ (fuel : Nat) (a : LCoQI) :
    inverseF (fuel + 1) a =
      (if a.coeffs.length = 1 ∧ ∅ ∈ a.coeffs.map (·.1) then do
        let q ← ratDiv 1 ((dictGet a.coeffs ∅).getD 0)
        LCoQI.init [(RawRoot.int 1, q)]
      else do
        let numerator ← LCoQI.init [(RawRoot.int 1, 1)]
        let roots ← keysReduce (a.coeffs.map (·.1))
        let nd ← (sortB roots).foldlM
          (fun (nd : LCoQI × LCoQI) root => do
            let compl ← conjugate nd.2 root
            let den ← mulF fuel nd.2 compl
            let num ← mulF fuel nd.1 compl
            pure (num, den))
          (numerator, a)
        let inv ← inverseF fuel nd.2
        mulF fuel nd.1 inv) := rfl

theorem mulEE (n : Nat) (a b : ℚ) :
    mulF (n + 1) ⟨[((∅ : BKey), a)]⟩ ⟨[((∅ : BKey), b)]⟩ =
      Except.ok ⟨[((∅ : BKey), a * b)]⟩ := mulRat n a b

theorem invE (n : Nat) (c : ℚ) (hc : ¬(c = 0)) :
    inverseF (n + 1) ⟨[((∅ : BKey), c)]⟩ = Except.ok ⟨[((∅ : BKey), 1 / c)]⟩ :=
  invRat n c hc

/-- Claim C1 (amended): the inverse law restricted to nonzero values of the
form `c0 + c1·√p` with `p` prime (the canonical two-term family the
rationalization was designed for): `a * a.inverse()` equals the rational unit. -/
theorem c1_amended (n p : Nat) (c0 c1 : ℚ) (hp : Nat.Prime p) (hc : ¬(c0 = 0 ∧ c1 = 0)) :
    (inverseF (n + 3) (primePair p c0 c1)).bind (mulF (n + 3) (primePair p c0 c1)) =
      Except.ok LCoQI.one := by
  have hpne : ((p : ℚ)) ≠ 0 := Nat.cast_ne_zero.mpr hp.pos.ne'
  have hEP : ¬((∅ : BKey) = {RFactor.num p}) := fun h => (Finset.singleton_ne_empty _) h.symm
  have hPE : ¬(({RFactor.num p} : BKey) = ∅) := Finset.singleton_ne_empty _
  by_cases hc1 : c1 = 0
  · have hc0 : ¬(c0 = 0) := fun h => hc ⟨h, hc1⟩
    subst hc1
    have hpp : primePair p c0 0 = ratVal c0 := by
      simp [primePair, ratVal, hc0]
    rw [hpp]
    have einv : inverseF (n + 3) (ratVal c0) = Except.ok (ratVal (1 / c0)) :=
      invRat (n + 2) c0 hc0
    rw [einv, exc_bind_ok2]
    have emul : mulF (n + 3) (ratVal c0) (ratVal (1 / c0)) =
        Except.ok (ratVal (c0 * (1 / c0))) := mulRat (n + 2) c0 (1 / c0)
    rw [emul, show c0 * (1 / c0) = 1 by field_simp]
    rfl
  · by_cases hc0 : c0 = 0
    · subst hc0
      have hpp : primePair p 0 c1 = ⟨[({RFactor.num p}, c1)]⟩ := by
        simp [primePair, hc1]
      rw [hpp]
      have e1 : conjugate ⟨[({RFactor.num p}, c1)]⟩ (RFactor.num p) =
          Except.ok ⟨[({RFactor.num p}, -c1)]⟩ :=
        conjugate_single_mem _ _ _ (Finset.mem_singleton_self _)
      have e2 : mulF (n + 2) ⟨[({RFactor.num p}, c1)]⟩ ⟨[({RFactor.num p}, -c1)]⟩ =
          Except.ok ⟨[((∅ : BKey), c1 * -c1 * (p : ℚ))]⟩ := mulPP (n + 1) p c1 (-c1)
      have e3 : mulF (n + 2) (ratVal 1) ⟨[({RFactor.num p}, -c1)]⟩ =
          Except.ok ⟨[({RFactor.num p}, 1 * -c1)]⟩ := mulEP (n + 1) p 1 (-c1)
      have hDne : ¬(c1 * -c1 * (p : ℚ) = 0) := by
        simp [hc1, hpne]
      have e4 : inverseF (n + 2) ⟨[((∅ : BKey), c1 * -c1 * (p : ℚ))]⟩ =
          Except.ok ⟨[((∅ : BKey), 1 / (c1 * -c1 * (p : ℚ)))]⟩ :=
        invE (n + 1) _ hDne
      have e5 : mulF (n + 2) ⟨[({RFactor.num p}, 1 * -c1)]⟩
            ⟨[((∅ : BKey), 1 / (c1 * -c1 * (p : ℚ)))]⟩ =
          Except.ok ⟨[({RFactor.num p}, (1 * -c1) * (1 / (c1 * -c1 * (p : ℚ))))]⟩ :=
        mulPE (n + 1) p (1 * -c1) (1 / (c1 * -c1 * (p : ℚ)))
      have ek : keysReduce (List.map (fun q => q.1) ([({RFactor.num p}, c1)] : List (BKey × ℚ))) =
          Except.ok ({RFactor.num p} : BKey) := rfl
      have hinv : inverseF (n + 3) ⟨[({RFactor.num p}, c1)]⟩ =
          Except.ok ⟨[({RFactor.num p}, (1 * -c1) * (1 / (c1 * -c1 * (p : ℚ))))]⟩ := by
        rw [inverseF_succ]
        rw [if_neg (by simp [hEP])]
        simp only [initRatDiv, exc_bind_ok, ek, sortB_singleton, List.foldlM_cons,
          List.foldlM_nil, e1, e2, e3, pure_bind]
        simp only [e4, exc_bind_ok, e5]
      rw [hinv, exc_bind_ok2]
      have e6 : mulF (n + 3) ⟨[({RFactor.num p}, c1)]⟩
            ⟨[({RFactor.num p}, (1 * -c1) * (1 / (c1 * -c1 * (p : ℚ))))]⟩ =
          Except.ok ⟨[((∅ : BKey),
            c1 * ((1 * -c1) * (1 / (c1 * -c1 * (p : ℚ)))) * (p : ℚ))]⟩ :=
        mulPP (n + 2) p c1 ((1 * -c1) * (1 / (c1 * -c1 * (p : ℚ))))
      rw [e6, show c1 * ((1 * -c1) * (1 / (c1 * -c1 * (p : ℚ)))) * (p : ℚ) = 1 by
        field_simp]
      rfl
    · have hpp : primePair p c0 c1 = ⟨[((∅ : BKey), c0), ({RFactor.num p}, c1)]⟩ := by
        simp [primePair, hc0, hc1]
      rw [hpp]
      have hDne : ¬(c0 * c0 + c1 * -c1 * (p : ℚ) = 0) := by
        intro h
        exact prime_no_rat_sq p hp c0 c1 hc1 (by linear_combination h)
      have e1 : conjugate ⟨[((∅ : BKey), c0), ({RFactor.num p}, c1)]⟩ (RFactor.num p) =
          Except.ok ⟨[((∅ : BKey), c0), ({RFactor.num p}, -c1)]⟩ := by
        simp only [conjugate, List.map_cons, List.map_nil]
        rw [if_neg (Finset.not_mem_empty _), if_pos (Finset.mem_singleton_self _)]
        exact initSet2 ∅ {RFactor.num p} hPE c0 (-c1)
      have e2 : mulF (n + 2) ⟨[((∅ : BKey), c0), ({RFactor.num p}, c1)]⟩
            ⟨[((∅ : BKey), c0), ({RFactor.num p}, -c1)]⟩ =
          Except.ok ⟨[((∅ : BKey), c0 * c0 + c1 * -c1 * (p : ℚ))]⟩ := by
        have base := mulF_multi_22 (n + 1) ((∅ : BKey), c0) ({RFactor.num p}, c1)
          ((∅ : BKey), c0) ({RFactor.num p}, -c1)
        refine Eq.trans base ?_
        rw [mulEE n c0 c0, exc_bind_ok, mulEP n p c0 (-c1), exc_bind_ok,
          mulPE n p c1 c0, exc_bind_ok, mulPP n p c1 (-c1), exc_bind_ok]
        rw [addA1 _ _ (mul_ne_zero hc0 hc0)]
        rw [addA2 _ _ _ _ hEP hPE (mul_ne_zero hc0 hc0)
          (mul_ne_zero hc0 (neg_ne_zero.mpr hc1))]
        rw [addA3 ∅ {RFactor.num p} (c0 * c0) (c0 * -c1) (c1 * c0) hEP
          (mul_ne_zero hc0 hc0) (by ring)]
        rw [addA5 _ _ _ hDne]
      have e3 : mulF (n + 2) (ratVal 1) ⟨[((∅ : BKey), c0), ({RFactor.num p}, -c1)]⟩ =
          Except.ok ⟨[((∅ : BKey), 1 * c0), ({RFactor.num p}, 1 * -c1)]⟩ := by
        have base := mulF_multi_12 (n + 1) ((∅ : BKey), (1 : ℚ)) ((∅ : BKey), c0)
          ({RFactor.num p}, -c1)
        refine Eq.trans base ?_
        rw [mulEE n 1 c0, exc_bind_ok, mulEP n p 1 (-c1), exc_bind_ok]
        rw [addA1 _ _ (mul_ne_zero one_ne_zero hc0)]
        rw [addA2 _ _ _ _ hEP hPE (mul_ne_zero one_ne_zero hc0)
          (mul_ne_zero one_ne_zero (neg_ne_zero.mpr hc1))]
      have e4 : inverseF (n + 2) ⟨[((∅ : BKey), c0 * c0 + c1 * -c1 * (p : ℚ))]⟩ =
          Except.ok ⟨[((∅ : BKey), 1 / (c0 * c0 + c1 * -c1 * (p : ℚ)))]⟩ :=
        invE (n + 1) _ hDne
      have hi0 : ¬((1 * c0) * (1 / (c0 * c0 + c1 * -c1 * (p : ℚ))) = 0) :=
        mul_ne_zero (mul_ne_zero one_ne_zero hc0) (one_div_ne_zero hDne)
      have hi1 : ¬((1 * -c1) * (1 / (c0 * c0 + c1 * -c1 * (p : ℚ))) = 0) :=
        mul_ne_zero (mul_ne_zero one_ne_zero (neg_ne_zero.mpr hc1)) (one_div_ne_zero hDne)
      have e5 : mulF (n + 2) ⟨[((∅ : BKey), 1 * c0), ({RFactor.num p}, 1 * -c1)]⟩
            ⟨[((∅ : BKey), 1 / (c0 * c0 + c1 * -c1 * (p : ℚ)))]⟩ =
          Except.ok ⟨[((∅ : BKey), (1 * c0) * (1 / (c0 * c0 + c1 * -c1 * (p : ℚ)))),
            ({RFactor.num p}, (1 * -c1) * (1 / (c0 * c0 + c1 * -c1 * (p : ℚ))))]⟩ := by
        have base := mulF_multi_21 (n + 1) ((∅ : BKey), 1 * c0) ({RFactor.num p}, 1 * -c1)
          ((∅ : BKey), 1 / (c0 * c0 + c1 * -c1 * (p : ℚ)))
        refine Eq.trans base ?_
        rw [mulEE n (1 * c0) (1 / (c0 * c0 + c1 * -c1 * (p : ℚ))), exc_bind_ok,
          mulPE n p (1 * -c1) (1 / (c0 * c0 + c1 * -c1 * (p : ℚ))), exc_bind_ok]
        rw [addA1 _ _ hi0]
        rw [addA2 _ _ _ _ hEP hPE hi0 hi1]
      have ek : keysReduce (List.map (fun q => q.1)
            ([((∅ : BKey), c0), ({RFactor.num p}, c1)] : List (BKey × ℚ))) =
          Except.ok ({RFactor.num p} : BKey) := by
        rw [show keysReduce (List.map (fun q => q.1)
            ([((∅ : BKey), c0), ({RFactor.num p}, c1)] : List (BKey × ℚ))) =
          Except.ok ((∅ : BKey) ∪ {RFactor.num p}) from rfl]
        rw [Finset.empty_union]
      have hinv : inverseF (n + 3) ⟨[((∅ : BKey), c0), ({RFactor.num p}, c1)]⟩ =
          Except.ok ⟨[((∅ : BKey), (1 * c0) * (1 / (c0 * c0 + c1 * -c1 * (p : ℚ)))),
            ({RFactor.num p}, (1 * -c1) * (1 / (c0 * c0 + c1 * -c1 * (p : ℚ))))]⟩ := by
        rw [inverseF_succ]
        rw [if_neg (by simp)]
        simp only [initRatDiv, exc_bind_ok, ek, sortB_singleton, List.foldlM_cons,
          List.foldlM_nil, e1, e2, e3, pure_bind]
        simp only [e4, exc_bind_ok, e5]
      rw [hinv, exc_bind_ok2]
      have hyz : c0 * ((1 * -c1) * (1 / (c0 * c0 + c1 * -c1 * (p : ℚ)))) +
          c1 * ((1 * c0) * (1 / (c0 * c0 + c1 * -c1 * (p : ℚ)))) = 0 := by ring
      have hD3 : (c0 ^ 2 - c1 ^ 2 * (p : ℚ)) ≠ 0 := fun h => hDne (by linear_combination h)
      have hsum : c0 * ((1 * c0) * (1 / (c0 * c0 + c1 * -c1 * (p : ℚ)))) +
          c1 * ((1 * -c1) * (1 / (c0 * c0 + c1 * -c1 * (p : ℚ)))) * (p : ℚ) = 1 := by
        have hstep : c0 * ((1 * c0) * (1 / (c0 * c0 + c1 * -c1 * (p : ℚ)))) +
            c1 * ((1 * -c1) * (1 / (c0 * c0 + c1 * -c1 * (p : ℚ)))) * (p : ℚ) =
            (c0 * c0 + c1 * -c1 * (p : ℚ)) * (c0 * c0 + c1 * -c1 * (p : ℚ))⁻¹ := by
          rw [one_div]; ring
        rw [hstep, mul_inv_cancel₀ hDne]
      have hsne : ¬(c0 * ((1 * c0) * (1 / (c0 * c0 + c1 * -c1 * (p : ℚ)))) +
          c1 * ((1 * -c1) * (1 / (c0 * c0 + c1 * -c1 * (p : ℚ)))) * (p : ℚ) = 0) := by
        rw [hsum]
        exact one_ne_zero
      have e6 : mulF (n + 3) ⟨[((∅ : BKey), c0), ({RFactor.num p}, c1)]⟩
            ⟨[((∅ : BKey), (1 * c0) * (1 / (c0 * c0 + c1 * -c1 * (p : ℚ)))),
              ({RFactor.num p}, (1 * -c1) * (1 / (c0 * c0 + c1 * -c1 * (p : ℚ))))]⟩ =
          Except.ok ⟨[((∅ : BKey),
            c0 * ((1 * c0) * (1 / (c0 * c0 + c1 * -c1 * (p : ℚ)))) +
              c1 * ((1 * -c1) * (1 / (c0 * c0 + c1 * -c1 * (p : ℚ)))) * (p : ℚ))]⟩ := by
        have base := mulF_multi_22 (n + 2) ((∅ : BKey), c0) ({RFactor.num p}, c1)
          ((∅ : BKey), (1 * c0) * (1 / (c0 * c0 + c1 * -c1 * (p : ℚ))))
          ({RFactor.num p}, (1 * -c1) * (1 / (c0 * c0 + c1 * -c1 * (p : ℚ))))
        refine Eq.trans base ?_
        rw [mulEE (n + 1) c0 ((1 * c0) * (1 / (c0 * c0 + c1 * -c1 * (p : ℚ)))), exc_bind_ok,
          mulEP (n + 1) p c0 ((1 * -c1) * (1 / (c0 * c0 + c1 * -c1 * (p : ℚ)))), exc_bind_ok,
          mulPE (n + 1) p c1 ((1 * c0) * (1 / (c0 * c0 + c1 * -c1 * (p : ℚ)))), exc_bind_ok,
          mulPP (n + 1) p c1 ((1 * -c1) * (1 / (c0 * c0 + c1 * -c1 * (p : ℚ)))), exc_bind_ok]
        rw [addA1 _ _ (mul_ne_zero hc0 hi0)]
        rw [addA2 _ _ _ _ hEP hPE (mul_ne_zero hc0 hi0) (mul_ne_zero hc0 hi1)]
        rw [addA3 _ _ _ _ _ hEP (mul_ne_zero hc0 hi0) hyz]
        rw [addA5 _ _ _ hsne]
      rw [e6, hsum]
      rfl

/-- Claim C1 (witness): instantiated at `p = 2`, `c0 = c1 = 1`, i.e. the value
`1 + √2`. -/
theorem c1_witness :
    (inverseF 3 (primePair 2 1 1)).bind (mulF 3 (primePair 2 1 1)) = Except.ok LCoQI.one :=
  c1_amended 0 2 1 1 (by norm_num) (by norm_num)
